import Mathlib

/-!
Verification of the detection post-processing engine of
`object_detection_tflite` (file `detect.py`), embedded shallowly in Lean.

Floating-point values are modelled as exact rationals; Python `int()`
(truncation toward zero) is modelled by `pyInt`; NumPy boolean masks become
`List.filter`; the per-class greedy NMS loop becomes the recursive function
`nmsClass`.
-/

/-- `np.finfo(np.float32).eps`, the clamp floor used by `Detector.bboxes_iou`. -/
def eps32 : ℚ := 1 / 2 ^ 23

/-- A box in `(xmin, ymin, xmax, ymax)` corner form (columns `0..3` of the
NumPy arrays handed to `Detector.bboxes_iou`). -/
structure Box where
  x1 : ℚ
  y1 : ℚ
  x2 : ℚ
  y2 : ℚ
  deriving DecidableEq

/-- `(boxes[..., 2] - boxes[..., 0]) * (boxes[..., 3] - boxes[..., 1])` in
`Detector.bboxes_iou`. -/
def boxArea (b : Box) : ℚ := (b.x2 - b.x1) * (b.y2 - b.y1)

/-- Width of `np.maximum(right_down - left_up, 0.0)` in `Detector.bboxes_iou`. -/
def interW (b1 b2 : Box) : ℚ := max (min b1.x2 b2.x2 - max b1.x1 b2.x1) 0

/-- Height of `np.maximum(right_down - left_up, 0.0)` in `Detector.bboxes_iou`. -/
def interH (b1 b2 : Box) : ℚ := max (min b1.y2 b2.y2 - max b1.y1 b2.y1) 0

/-- `inter_area` of `Detector.bboxes_iou`. -/
def interArea (b1 b2 : Box) : ℚ := interW b1 b2 * interH b1 b2

/-- `union_area = boxes1_area + boxes2_area - inter_area` of `Detector.bboxes_iou`. -/
def unionArea (b1 b2 : Box) : ℚ := boxArea b1 + boxArea b2 - interArea b1 b2

/-- `Detector.bboxes_iou`: `np.maximum(1.0 * inter_area / union_area, eps)`,
with the division taken in the rational field. -/
def bboxes_iou (b1 b2 : Box) : ℚ := max (interArea b1 b2 / unionArea b1 b2) eps32

/-- `Detector.bboxes_iou` with the division made explicit as a fallible
operation: the source divides by `union_area` unconditionally, so a pair with
zero union area makes the division ill-defined (`0/0` is NaN in NumPy). -/
def bboxes_iou_checked (b1 b2 : Box) : Option ℚ :=
  if unionArea b1 b2 = 0 then none else some (bboxes_iou b1 b2)

-- ### C3 / C4 proofs

lemma interW_nonneg (b1 b2 : Box) : 0 ≤ interW b1 b2 := le_max_right _ _

lemma interH_nonneg (b1 b2 : Box) : 0 ≤ interH b1 b2 := le_max_right _ _

lemma interW_le_width (b1 b2 : Box) (h : b1.x1 ≤ b1.x2) :
    interW b1 b2 ≤ b1.x2 - b1.x1 := by
  unfold interW
  apply max_le _ (by linarith)
  have h1 : min b1.x2 b2.x2 ≤ b1.x2 := min_le_left _ _
  have h2 : b1.x1 ≤ max b1.x1 b2.x1 := le_max_left _ _
  linarith

lemma interH_le_height (b1 b2 : Box) (h : b1.y1 ≤ b1.y2) :
    interH b1 b2 ≤ b1.y2 - b1.y1 := by
  unfold interH
  apply max_le _ (by linarith)
  have h1 : min b1.y2 b2.y2 ≤ b1.y2 := min_le_left _ _
  have h2 : b1.y1 ≤ max b1.y1 b2.y1 := le_max_left _ _
  linarith

lemma interArea_le_boxArea (b1 b2 : Box) (hx : b1.x1 ≤ b1.x2) (hy : b1.y1 ≤ b1.y2) :
    interArea b1 b2 ≤ boxArea b1 := by
  unfold interArea boxArea
  have hW := interW_le_width b1 b2 hx
  have hH := interH_le_height b1 b2 hy
  have h1 := interW_nonneg b1 b2
  have h2 := interH_nonneg b1 b2
  calc interW b1 b2 * interH b1 b2 ≤ (b1.x2 - b1.x1) * (b1.y2 - b1.y1) :=
        mul_le_mul hW hH h2 (by linarith)
    _ = _ := rfl

/-- C3 (amended): for two identical boxes of positive extent the IoU is exactly
`1`; for two boxes that are separated along an axis (disjoint) the IoU is the
float32 machine epsilon `eps32`, which is positive — not `0`. -/
theorem iou_identical_one_disjoint_eps (b b1 b2 : Box)
    (hx : b.x1 < b.x2) (hy : b.y1 < b.y2)
    (hsep : min b1.x2 b2.x2 ≤ max b1.x1 b2.x1 ∨ min b1.y2 b2.y2 ≤ max b1.y1 b2.y1) :
    bboxes_iou b b = 1 ∧ bboxes_iou b1 b2 = eps32 ∧ 0 < eps32 := by
  refine ⟨?_, ?_, by norm_num [eps32]⟩
  · have hW : interW b b = b.x2 - b.x1 := by
      unfold interW
      rw [min_self, max_self, max_eq_left (by linarith)]
    have hH : interH b b = b.y2 - b.y1 := by
      unfold interH
      rw [min_self, max_self, max_eq_left (by linarith)]
    have hIA : interArea b b = boxArea b := by
      unfold interArea boxArea; rw [hW, hH]
    have hU : unionArea b b = boxArea b := by
      unfold unionArea; rw [hIA]; ring
    have hA : boxArea b ≠ 0 := by
      have := mul_pos (sub_pos.mpr hx) (sub_pos.mpr hy)
      unfold boxArea
      exact ne_of_gt this
    unfold bboxes_iou
    rw [hIA, hU, div_self hA, max_eq_left (by norm_num [eps32])]
  · have hIA : interArea b1 b2 = 0 := by
      rcases hsep with h | h
      · have h0 : interW b1 b2 = 0 := by
          unfold interW; exact max_eq_right (by linarith)
        unfold interArea; rw [h0, zero_mul]
      · have h0 : interH b1 b2 = 0 := by
          unfold interH; exact max_eq_right (by linarith)
        unfold interArea; rw [h0, mul_zero]
    unfold bboxes_iou
    rw [hIA, zero_div, max_eq_right (by norm_num [eps32])]

theorem iou_identical_one_disjoint_eps_witness :
    bboxes_iou ⟨0, 0, 1, 1⟩ ⟨0, 0, 1, 1⟩ = 1 ∧
      bboxes_iou ⟨0, 0, 1, 1⟩ ⟨2, 2, 3, 3⟩ = eps32 ∧ 0 < eps32 :=
  iou_identical_one_disjoint_eps ⟨0, 0, 1, 1⟩ ⟨0, 0, 1, 1⟩ ⟨2, 2, 3, 3⟩
    (by norm_num) (by norm_num) (by norm_num)

/-- C3 counterexample: two disjoint boxes do not get IoU `0`; the clamp makes
the result the (positive) machine epsilon. -/
theorem iou_disjoint_not_zero_counterexample :
    bboxes_iou ⟨0, 0, 1, 1⟩ ⟨2, 2, 3, 3⟩ ≠ 0 := by
  norm_num [bboxes_iou, interArea, interW, interH, unionArea, boxArea, eps32,
    max_def, min_def]

/-- C4 (amended): the source divides by `union_area` unconditionally, so the
division is well-defined only when the union area is nonzero.  For every pair
of proper boxes of positive area — which is what the YOLO call site feeds it,
thanks to its `scale_mask` — the union area is strictly positive, the division
is safe, and the clamped result is at least `eps32`. -/
theorem iou_no_div_by_zero_on_positive_boxes (b1 b2 : Box)
    (h1x : b1.x1 ≤ b1.x2) (h1y : b1.y1 ≤ b1.y2)
    (_h2x : b2.x1 ≤ b2.x2) (_h2y : b2.y1 ≤ b2.y2)
    (_hA1 : 0 < boxArea b1) (hA2 : 0 < boxArea b2) :
    0 < unionArea b1 b2 ∧ bboxes_iou_checked b1 b2 = some (bboxes_iou b1 b2) ∧
      eps32 ≤ bboxes_iou b1 b2 := by
  have hle := interArea_le_boxArea b1 b2 h1x h1y
  have hU : 0 < unionArea b1 b2 := by unfold unionArea; linarith
  exact ⟨hU, by unfold bboxes_iou_checked; rw [if_neg (ne_of_gt hU)], le_max_right _ _⟩

theorem iou_no_div_by_zero_on_positive_boxes_witness :
    0 < unionArea ⟨0, 0, 1, 1⟩ ⟨0, 0, 2, 2⟩ ∧
      bboxes_iou_checked ⟨0, 0, 1, 1⟩ ⟨0, 0, 2, 2⟩ =
        some (bboxes_iou ⟨0, 0, 1, 1⟩ ⟨0, 0, 2, 2⟩) ∧
      eps32 ≤ bboxes_iou ⟨0, 0, 1, 1⟩ ⟨0, 0, 2, 2⟩ :=
  iou_no_div_by_zero_on_positive_boxes ⟨0, 0, 1, 1⟩ ⟨0, 0, 2, 2⟩
    (by norm_num) (by norm_num) (by norm_num) (by norm_num)
    (by norm_num [boxArea]) (by norm_num [boxArea])

/-- C4 counterexample: for a pair of degenerate boxes the union area is zero
and the code performs the division anyway — there is no branch clamping the
zero-union case to epsilon before dividing. -/
theorem iou_zero_union_divides_counterexample :
    unionArea ⟨0, 0, 0, 0⟩ ⟨0, 0, 0, 0⟩ = 0 ∧
      bboxes_iou_checked ⟨0, 0, 0, 0⟩ ⟨0, 0, 0, 0⟩ = none := by
  norm_num [bboxes_iou_checked, unionArea, boxArea, interArea, interW, interH,
    max_def, min_def]

-- ### The candidate pool and the per-class greedy NMS of `get_frames_yolo`

/-- One row of the `bboxes` array of `get_frames_yolo`: corner-form box
(columns 0–3), class id (column 4, an `np.argmax` result, hence a natural
number stored exactly in a float), and score (column 5). -/
structure BBox where
  x1 : ℚ
  y1 : ℚ
  x2 : ℚ
  y2 : ℚ
  cls : ℕ
  score : ℚ
  deriving DecidableEq

/-- Columns 0–3 of a row, as passed to `bboxes_iou`. -/
def BBox.box (b : BBox) : Box := ⟨b.x1, b.y1, b.x2, b.y2⟩

/-- Placeholder row for `List.getD`; never actually selected because the index
is always in range. -/
def dummyB : BBox := ⟨0, 0, 0, 0, 0, 0⟩

/-- `np.argmax`: index of the first occurrence of the maximum value. -/
def argmaxIdx : List ℚ → ℕ
  | [] => 0
  | [_] => 0
  | x :: y :: ys =>
    if x < (y :: ys).getD (argmaxIdx (y :: ys)) 0 then argmaxIdx (y :: ys) + 1 else 0

/-- The NMS overlap cutoff `0.213` of `get_frames_yolo`. -/
def nmsThreshold : ℚ := 213 / 1000

/-- One body of the `while` loop after the best row was emitted: weights
(`1` kept, `0` for IoU above the cutoff) are multiplied into the scores and
rows with non-positive score are discarded (`score_mask`). -/
def nmsStep (best : BBox) (l : List BBox) : List BBox :=
  (l.map fun c =>
    if nmsThreshold < bboxes_iou best.box c.box then { c with score := c.score * 0 }
    else { c with score := c.score * 1 }).filter fun c => decide (0 < c.score)

lemma argmaxIdx_lt : ∀ (l : List ℚ), l ≠ [] → argmaxIdx l < l.length
  | [_], _ => by simp [argmaxIdx]
  | x :: y :: ys, _ => by
    have ih := argmaxIdx_lt (y :: ys) (by simp)
    simp only [argmaxIdx]
    split
    · simpa using Nat.succ_lt_succ ih
    · simp

lemma nmsStep_length_le (b : BBox) (l : List BBox) :
    (nmsStep b l).length ≤ l.length := by
  unfold nmsStep
  exact le_trans (List.length_filter_le _ _) (le_of_eq (List.length_map _ _))

lemma nms_measure_lt (l : List BBox) (h : ¬ l = []) :
    (nmsStep (l.getD (argmaxIdx (l.map BBox.score)) dummyB)
      (l.eraseIdx (argmaxIdx (l.map BBox.score)))).length < l.length := by
  have hi : argmaxIdx (l.map BBox.score) < l.length := by
    have := argmaxIdx_lt (l.map BBox.score) (by simpa using h)
    simpa using this
  have h1 := nmsStep_length_le (l.getD (argmaxIdx (l.map BBox.score)) dummyB)
    (l.eraseIdx (argmaxIdx (l.map BBox.score)))
  have h2 : (l.eraseIdx (argmaxIdx (l.map BBox.score))).length < l.length := by
    rw [List.length_eraseIdx]
    simp only [hi, if_pos]
    omega
  exact lt_of_le_of_lt h1 h2

/-- The inner `while len(cls_bboxes) > 0` loop of `get_frames_yolo`: emit the
row with the highest score, remove it, and run `nmsStep` on the remainder. -/
def nmsClass (l : List BBox) : List BBox :=
  if h : l = [] then []
  else
    (l.getD (argmaxIdx (l.map BBox.score)) dummyB) ::
      nmsClass (nmsStep (l.getD (argmaxIdx (l.map BBox.score)) dummyB)
        (l.eraseIdx (argmaxIdx (l.map BBox.score))))
termination_by l.length
decreasing_by exact nms_measure_lt l h

/-- `list(set(class_ids))`, modelled deterministically as deduplication in
order of first occurrence. -/
def uniqClasses : List ℕ → List ℕ
  | [] => []
  | c :: cs => c :: uniqClasses (cs.filter fun x => x != c)
termination_by l => l.length
decreasing_by exact Nat.lt_succ_of_le (List.length_filter_le _ _)

/-- The outer `for cls in unique_class_ids` loop: per-class partitions
(`cls_mask`) fed through `nmsClass`, results appended into `best_bboxes`. -/
def nmsClasses (pool : List BBox) : List ℕ → List BBox
  | [] => []
  | c :: cs => nmsClass (pool.filter fun b => b.cls == c) ++ nmsClasses pool cs

/-- The whole suppression stage of `get_frames_yolo` (lines 526–550). -/
def nms (pool : List BBox) : List BBox :=
  nmsClasses pool (uniqClasses (pool.map BBox.cls))

-- ### Basic properties of the NMS building blocks

lemma argmaxIdx_le : ∀ (l : List ℚ) (x : ℚ), x ∈ l → x ≤ l.getD (argmaxIdx l) 0
  | [a], x, hx => by
    simp only [List.mem_singleton] at hx
    subst hx
    simp [argmaxIdx]
  | a :: b :: bs, x, hx => by
    have ih := fun y hy => argmaxIdx_le (b :: bs) y hy
    simp only [argmaxIdx]
    split
    · rename_i hlt
      rw [List.getD_cons_succ]
      rcases List.mem_cons.mp hx with rfl | hmem
      · exact le_of_lt hlt
      · exact ih x hmem
    · rename_i hlt
      rw [List.getD_cons_zero]
      rcases List.mem_cons.mp hx with rfl | hmem
      · exact le_refl x
      · exact le_trans (ih x hmem) (not_lt.mp hlt)

lemma getD_mem_of_lt {α : Type} (l : List α) (i : ℕ) (d : α) (h : i < l.length) :
    l.getD i d ∈ l := by
  rw [List.getD_eq_getElem l d h]
  exact List.getElem_mem h

lemma argmaxIdx_sorted_eq_zero :
    ∀ (l : List ℚ), l.Pairwise (fun a b => b ≤ a) → argmaxIdx l = 0
  | [], _ => rfl
  | [_], _ => rfl
  | a :: b :: bs, hp => by
    have hall : ∀ y ∈ b :: bs, y ≤ a := (List.pairwise_cons.mp hp).1
    have hlt : argmaxIdx (b :: bs) < (b :: bs).length :=
      argmaxIdx_lt (b :: bs) (by simp)
    have hmem : (b :: bs).getD (argmaxIdx (b :: bs)) 0 ∈ b :: bs :=
      getD_mem_of_lt _ _ _ hlt
    simp only [argmaxIdx]
    rw [if_neg (not_lt.mpr (hall _ hmem))]

lemma getD_map_score (l : List BBox) (i : ℕ) (hi : i < l.length) :
    (l.map BBox.score).getD i 0 = (l.getD i dummyB).score := by
  rw [List.getD_eq_getElem _ _ (by simpa using hi), List.getD_eq_getElem _ _ hi]
  simp

lemma best_score_ge (l : List BBox) (h : l ≠ []) (x : BBox) (hx : x ∈ l) :
    x.score ≤ (l.getD (argmaxIdx (l.map BBox.score)) dummyB).score := by
  have hidx : argmaxIdx (l.map BBox.score) < l.length := by
    have := argmaxIdx_lt (l.map BBox.score) (by simpa using h)
    simpa using this
  have hmem : x.score ∈ l.map BBox.score := List.mem_map_of_mem _ hx
  have hle := argmaxIdx_le (l.map BBox.score) x.score hmem
  rwa [getD_map_score l _ hidx] at hle

lemma nmsClass_nil : nmsClass [] = [] := by
  rw [nmsClass]
  simp

lemma nmsClass_cons (l : List BBox) (h : l ≠ []) :
    nmsClass l = (l.getD (argmaxIdx (l.map BBox.score)) dummyB) ::
      nmsClass (nmsStep (l.getD (argmaxIdx (l.map BBox.score)) dummyB)
        (l.eraseIdx (argmaxIdx (l.map BBox.score)))) := by
  rw [nmsClass]
  simp [h]

lemma nmsStep_eq_filter (b : BBox) (l : List BBox) :
    nmsStep b l = l.filter fun c =>
      decide (bboxes_iou b.box c.box ≤ nmsThreshold) && decide (0 < c.score) := by
  induction l with
  | nil => rfl
  | cons c cs ih =>
    unfold nmsStep at ih ⊢
    simp only [List.map_cons]
    by_cases hio : nmsThreshold < bboxes_iou b.box c.box
    · rw [if_pos hio]
      rw [List.filter_cons_of_neg (by simp)]
      rw [List.filter_cons_of_neg (by simp [not_le.mpr hio])]
      exact ih
    · rw [if_neg hio]
      have hc : ({ c with score := c.score * 1 } : BBox) = c := by
        cases c
        simp
      rw [hc]
      by_cases hs : 0 < c.score
      · rw [List.filter_cons_of_pos (by simpa using hs),
          List.filter_cons_of_pos (by simp [hs, le_of_not_lt hio]), ih]
      · rw [List.filter_cons_of_neg (by simpa using hs),
          List.filter_cons_of_neg (by simp [hs])]
        exact ih

lemma mem_nmsStep {b x : BBox} {l : List BBox} (hx : x ∈ nmsStep b l) :
    x ∈ l ∧ bboxes_iou b.box x.box ≤ nmsThreshold ∧ 0 < x.score := by
  rw [nmsStep_eq_filter] at hx
  have := List.mem_filter.mp hx
  simpa using this

lemma nmsClass_props (l : List BBox) :
    (∀ x ∈ nmsClass l, x ∈ l) ∧
    (nmsClass l).Pairwise (fun a b => b.score ≤ a.score) ∧
    (nmsClass l).Pairwise (fun a b => bboxes_iou a.box b.box ≤ nmsThreshold) ∧
    (∀ x ∈ (nmsClass l).tail, 0 < x.score) := by
  by_cases h : l = []
  · subst h
    simp [nmsClass_nil]
  · have hrec := nmsClass_props (nmsStep (l.getD (argmaxIdx (l.map BBox.score)) dummyB)
      (l.eraseIdx (argmaxIdx (l.map BBox.score))))
    obtain ⟨hsub, hsort, hiou, _⟩ := hrec
    have hstep : ∀ x ∈ nmsClass (nmsStep (l.getD (argmaxIdx (l.map BBox.score)) dummyB)
        (l.eraseIdx (argmaxIdx (l.map BBox.score)))),
        x ∈ l.eraseIdx (argmaxIdx (l.map BBox.score)) ∧
        bboxes_iou (l.getD (argmaxIdx (l.map BBox.score)) dummyB).box x.box ≤ nmsThreshold ∧
        0 < x.score := fun x hx => mem_nmsStep (hsub x hx)
    have hmeml : ∀ x ∈ nmsClass (nmsStep (l.getD (argmaxIdx (l.map BBox.score)) dummyB)
        (l.eraseIdx (argmaxIdx (l.map BBox.score)))), x ∈ l := fun x hx =>
      (List.eraseIdx_sublist l (argmaxIdx (l.map BBox.score))).subset (hstep x hx).1
    have hidx : argmaxIdx (l.map BBox.score) < l.length := by
      have := argmaxIdx_lt (l.map BBox.score) (by simpa using h)
      simpa using this
    have hbestmem : l.getD (argmaxIdx (l.map BBox.score)) dummyB ∈ l :=
      getD_mem_of_lt _ _ _ hidx
    rw [nmsClass_cons l h]
    refine ⟨?_, ?_, ?_, ?_⟩
    · intro x hx
      rcases List.mem_cons.mp hx with rfl | hmem
      · exact hbestmem
      · exact hmeml x hmem
    · exact List.pairwise_cons.mpr
        ⟨fun y hy => best_score_ge l h y (hmeml y hy), hsort⟩
    · exact List.pairwise_cons.mpr ⟨fun y hy => (hstep y hy).2.1, hiou⟩
    · intro x hx
      exact (hstep x (by simpa using hx)).2.2
termination_by l.length
decreasing_by exact nms_measure_lt l h

lemma nmsClass_fixed : ∀ (l : List BBox),
    l.Pairwise (fun a b => b.score ≤ a.score) →
    l.Pairwise (fun a b => bboxes_iou a.box b.box ≤ nmsThreshold) →
    (∀ x ∈ l.tail, 0 < x.score) → nmsClass l = l
  | [], _, _, _ => nmsClass_nil
  | a :: t, hs, hio, hpos => by
    have hidx : argmaxIdx ((a :: t).map BBox.score) = 0 := by
      apply argmaxIdx_sorted_eq_zero
      rw [List.pairwise_map]
      exact hs
    rw [nmsClass_cons _ (by simp), hidx]
    simp only [List.getD_cons_zero, List.eraseIdx_cons_zero]
    have hstep : nmsStep a t = t := by
      rw [nmsStep_eq_filter]
      apply List.filter_eq_self.mpr
      intro c hc
      have h1 : bboxes_iou a.box c.box ≤ nmsThreshold := (List.pairwise_cons.mp hio).1 c hc
      have h2 : 0 < c.score := hpos c (by simpa using hc)
      simp [h1, h2]
    rw [hstep]
    congr 1
    exact nmsClass_fixed t (List.pairwise_cons.mp hs).2 (List.pairwise_cons.mp hio).2
      (fun x hx => hpos x (List.tail_sublist t |>.subset hx))

lemma nmsClass_idem (l : List BBox) : nmsClass (nmsClass l) = nmsClass l := by
  obtain ⟨_, hsort, hiou, hpos⟩ := nmsClass_props l
  exact nmsClass_fixed _ hsort hiou hpos

-- ### Assembling the per-class pieces

lemma uniqClasses_nil : uniqClasses [] = [] := by
  rw [uniqClasses]

lemma uniqClasses_cons (c : ℕ) (cs : List ℕ) :
    uniqClasses (c :: cs) = c :: uniqClasses (cs.filter fun x => x != c) := by
  rw [uniqClasses]

lemma mem_uniqClasses : ∀ (m : List ℕ) (c : ℕ), c ∈ uniqClasses m ↔ c ∈ m
  | [], c => by simp [uniqClasses_nil]
  | d :: cs, c => by
    rw [uniqClasses_cons]
    by_cases hcd : c = d
    · subst hcd
      simp
    · have ih := mem_uniqClasses (cs.filter fun x => x != d) c
      simp only [List.mem_cons, ih, List.mem_filter]
      simp [hcd]
termination_by m => m.length
decreasing_by exact Nat.lt_succ_of_le (List.length_filter_le _ _)

lemma uniqClasses_nodup : ∀ (m : List ℕ), (uniqClasses m).Nodup
  | [] => by simp [uniqClasses_nil]
  | d :: cs => by
    rw [uniqClasses_cons]
    refine List.nodup_cons.mpr ⟨?_, uniqClasses_nodup (cs.filter fun x => x != d)⟩
    intro hmem
    have := (mem_uniqClasses _ d).mp hmem
    simp at this
termination_by m => m.length
decreasing_by exact Nat.lt_succ_of_le (List.length_filter_le _ _)

lemma mem_nmsClasses {x : BBox} (pool : List BBox) :
    ∀ (cs : List ℕ), x ∈ nmsClasses pool cs ↔
      ∃ c ∈ cs, x ∈ nmsClass (pool.filter fun b => b.cls == c)
  | [] => by simp [nmsClasses]
  | c :: cs => by
    simp only [nmsClasses, List.mem_append, mem_nmsClasses pool cs, List.mem_cons]
    constructor
    · rintro (h | ⟨d, hd, hx⟩)
      · exact ⟨c, Or.inl rfl, h⟩
      · exact ⟨d, Or.inr hd, hx⟩
    · rintro ⟨d, rfl | hd, hx⟩
      · exact Or.inl hx
      · exact Or.inr ⟨d, hd, hx⟩

lemma cls_of_mem_nmsClass {x : BBox} {pool : List BBox} {c : ℕ}
    (hx : x ∈ nmsClass (pool.filter fun b => b.cls == c)) : x ∈ pool ∧ x.cls = c := by
  have hmem := (nmsClass_props _).1 x hx
  have := List.mem_filter.mp hmem
  simpa using this

lemma nmsClass_ne_nil {l : List BBox} (h : l ≠ []) : nmsClass l ≠ [] := by
  rw [nmsClass_cons l h]
  simp

lemma filter_nmsClasses (pool : List BBox) :
    ∀ (cs : List ℕ), cs.Nodup → ∀ c₀ ∈ cs,
      (nmsClasses pool cs).filter (fun b => b.cls == c₀) =
        nmsClass (pool.filter fun b => b.cls == c₀)
  | [], _, c₀, hc₀ => by simp at hc₀
  | c :: cs, hnd, c₀, hc₀ => by
    simp only [nmsClasses, List.filter_append]
    rcases List.mem_cons.mp hc₀ with rfl | hc₀'
    · have h1 : (nmsClass (pool.filter fun b => b.cls == c₀)).filter
          (fun b => b.cls == c₀) = nmsClass (pool.filter fun b => b.cls == c₀) := by
        apply List.filter_eq_self.mpr
        intro a ha
        simpa using (cls_of_mem_nmsClass ha).2
      have h2 : (nmsClasses pool cs).filter (fun b => b.cls == c₀) = [] := by
        apply List.filter_eq_nil_iff.mpr
        intro a ha
        obtain ⟨d, hd, hx⟩ := (mem_nmsClasses pool cs).mp ha
        have hcls := (cls_of_mem_nmsClass hx).2
        have hne : d ≠ c₀ := by
          intro hdc
          subst hdc
          exact (List.nodup_cons.mp hnd).1 hd
        simp [hcls, hne]
      rw [h1, h2, List.append_nil]
    · have h1 : (nmsClass (pool.filter fun b => b.cls == c)).filter
          (fun b => b.cls == c₀) = [] := by
        apply List.filter_eq_nil_iff.mpr
        intro a ha
        have hcls := (cls_of_mem_nmsClass ha).2
        have hne : c ≠ c₀ := by
          intro hdc
          subst hdc
          exact (List.nodup_cons.mp hnd).1 hc₀'
        simp [hcls, hne]
      rw [h1, filter_nmsClasses pool cs (List.nodup_cons.mp hnd).2 c₀ hc₀',
        List.nil_append]

lemma uniqClasses_append_block (c : ℕ) :
    ∀ (l1 l2 : List ℕ), (∀ d ∈ l1, d = c) → l1 ≠ [] →
      uniqClasses (l1 ++ l2) = c :: uniqClasses (l2.filter fun x => x != c) := by
  intro l1
  induction l1 with
  | nil => intro l2 _ h; simp at h
  | cons d l1 ih =>
    intro l2 hall _
    have hdc : d = c := hall d (by simp)
    subst hdc
    rw [List.cons_append, uniqClasses_cons]
    have hall' : ∀ e ∈ l1, e = d := fun e he => hall e (by simp [he])
    have hfilter : (l1 ++ l2).filter (fun x => x != d) =
        l2.filter fun x => x != d := by
      rw [List.filter_append]
      have : l1.filter (fun x => x != d) = [] := by
        apply List.filter_eq_nil_iff.mpr
        intro a ha
        simp [hall' a ha]
      rw [this, List.nil_append]
    rw [hfilter]

lemma uniq_map_cls_nmsClasses (pool : List BBox) :
    ∀ (cs : List ℕ), cs.Nodup →
      (∀ c ∈ cs, pool.filter (fun b => b.cls == c) ≠ []) →
      uniqClasses ((nmsClasses pool cs).map BBox.cls) = cs := by
  intro cs
  induction cs with
  | nil => intro _ _; simp [nmsClasses, uniqClasses_nil]
  | cons c cs ih =>
    intro hnd hne
    simp only [nmsClasses, List.map_append]
    have hblock : nmsClass (pool.filter fun b => b.cls == c) ≠ [] :=
      nmsClass_ne_nil (hne c (by simp))
    have hall : ∀ d ∈ (nmsClass (pool.filter fun b => b.cls == c)).map BBox.cls,
        d = c := by
      intro d hd
      obtain ⟨a, ha, rfl⟩ := List.mem_map.mp hd
      exact (cls_of_mem_nmsClass ha).2
    rw [uniqClasses_append_block c _ _ hall (by simpa using hblock)]
    have hrest : ((nmsClasses pool cs).map BBox.cls).filter (fun x => x != c) =
        (nmsClasses pool cs).map BBox.cls := by
      apply List.filter_eq_self.mpr
      intro a ha
      obtain ⟨b, hb, rfl⟩ := List.mem_map.mp ha
      obtain ⟨d, hd, hx⟩ := (mem_nmsClasses pool cs).mp hb
      have hcls := (cls_of_mem_nmsClass hx).2
      have hne2 : d ≠ c := by
        intro hdc
        subst hdc
        exact (List.nodup_cons.mp hnd).1 hd
      simp [hcls, hne2]
    rw [hrest, ih (List.nodup_cons.mp hnd).2
      (fun d hd => hne d (by simp [hd]))]

lemma nmsClasses_congr (p1 p2 : List BBox) :
    ∀ (cs : List ℕ),
      (∀ c ∈ cs, nmsClass (p1.filter fun b => b.cls == c) =
        nmsClass (p2.filter fun b => b.cls == c)) →
      nmsClasses p1 cs = nmsClasses p2 cs := by
  intro cs
  induction cs with
  | nil => intro _; rfl
  | cons c cs ih =>
    intro hcong
    simp only [nmsClasses]
    rw [hcong c (by simp), ih (fun d hd => hcong d (by simp [hd]))]

/-- C5: the per-class greedy NMS of `get_frames_yolo` is idempotent — running
the suppression stage on its own output returns that output unchanged: the
emitted rows are sorted by decreasing score, pairwise IoU-compatible
(`≤ 0.213`) within each class, and all have positive score after the first,
so a second pass suppresses nothing. -/
theorem nms_idempotent (pool : List BBox) : nms (nms pool) = nms pool := by
  unfold nms
  have hnd := uniqClasses_nodup (pool.map BBox.cls)
  have hne : ∀ c ∈ uniqClasses (pool.map BBox.cls),
      pool.filter (fun b => b.cls == c) ≠ [] := by
    intro c hc
    have hmem : c ∈ pool.map BBox.cls := (mem_uniqClasses _ c).mp hc
    obtain ⟨b, hb, rfl⟩ := List.mem_map.mp hmem
    intro hnil
    have : b ∈ pool.filter fun x => x.cls == b.cls :=
      List.mem_filter.mpr ⟨hb, by simp⟩
    rw [hnil] at this
    simp at this
  rw [uniq_map_cls_nmsClasses pool _ hnd hne]
  apply nmsClasses_congr
  intro c hc
  rw [filter_nmsClasses pool _ hnd c hc, nmsClass_idem]

/-- C2: cross-class overlap never suppresses.  First: any candidate that is
the unique representative of its class in the pool survives NMS.  Second: two
boxes with identical coordinates but different class ids are both emitted when
NMS runs on the pool made of the two. -/
theorem nms_cross_class_isolation :
    (∀ (pool : List BBox) (b : BBox), b ∈ pool →
      (∀ b' ∈ pool, b'.cls = b.cls → b' = b) → b ∈ nms pool) ∧
    (∀ (x1 y1 x2 y2 s1 s2 : ℚ) (c1 c2 : ℕ), c1 ≠ c2 →
      (⟨x1, y1, x2, y2, c1, s1⟩ : BBox) ∈
        nms [⟨x1, y1, x2, y2, c1, s1⟩, ⟨x1, y1, x2, y2, c2, s2⟩] ∧
      (⟨x1, y1, x2, y2, c2, s2⟩ : BBox) ∈
        nms [⟨x1, y1, x2, y2, c1, s1⟩, ⟨x1, y1, x2, y2, c2, s2⟩]) := by
  have main : ∀ (pool : List BBox) (b : BBox), b ∈ pool →
      (∀ b' ∈ pool, b'.cls = b.cls → b' = b) → b ∈ nms pool := by
    intro pool b hb huniq
    have hcls : b.cls ∈ uniqClasses (pool.map BBox.cls) :=
      (mem_uniqClasses _ _).mpr (List.mem_map_of_mem _ hb)
    have hbf : b ∈ pool.filter fun x => x.cls == b.cls :=
      List.mem_filter.mpr ⟨hb, by simp⟩
    have hfne : pool.filter (fun x => x.cls == b.cls) ≠ [] := by
      intro hnil
      rw [hnil] at hbf
      simp at hbf
    have hhead : (pool.filter fun x => x.cls == b.cls).getD
        (argmaxIdx ((pool.filter fun x => x.cls == b.cls).map BBox.score)) dummyB = b := by
      have hidx : argmaxIdx ((pool.filter fun x => x.cls == b.cls).map BBox.score) <
          (pool.filter fun x => x.cls == b.cls).length := by
        have := argmaxIdx_lt ((pool.filter fun x => x.cls == b.cls).map BBox.score)
          (by simpa using hfne)
        simpa using this
      have hmem := getD_mem_of_lt (pool.filter fun x => x.cls == b.cls)
        (argmaxIdx ((pool.filter fun x => x.cls == b.cls).map BBox.score)) dummyB hidx
      have := List.mem_filter.mp hmem
      exact huniq _ this.1 (by simpa using this.2)
    have hbmem : b ∈ nmsClass (pool.filter fun x => x.cls == b.cls) := by
      rw [nmsClass_cons _ hfne, hhead]
      simp
    exact (mem_nmsClasses pool _).mpr ⟨b.cls, hcls, hbmem⟩
  refine ⟨main, ?_⟩
  intro x1 y1 x2 y2 s1 s2 c1 c2 hne
  constructor
  · apply main _ _ (by simp)
    intro b' hb' hcls
    rcases List.mem_cons.mp hb' with rfl | hb2
    · rfl
    · simp only [List.mem_singleton] at hb2
      subst hb2
      simp only [BBox.mk.injEq] at hcls ⊢
      exact absurd hcls (by simpa using hne.symm)
  · apply main _ _ (by simp)
    intro b' hb' hcls
    rcases List.mem_cons.mp hb' with rfl | hb2
    · exact absurd hcls (by simpa using hne)
    · simpa using hb2

theorem nms_cross_class_isolation_witness :
    (⟨0, 0, 10, 10, 1, 1/2⟩ : BBox) ∈
      nms [⟨0, 0, 10, 10, 1, 1/2⟩, ⟨0, 0, 10, 10, 2, 3/4⟩] ∧
    (⟨0, 0, 10, 10, 2, 3/4⟩ : BBox) ∈
      nms [⟨0, 0, 10, 10, 1, 1/2⟩, ⟨0, 0, 10, 10, 2, 3/4⟩] :=
  nms_cross_class_isolation.2 0 0 10 10 (1/2) (3/4) 1 2 (by decide)

/-- C10: the inner per-class NMS loop terminates — one loop body (removal of
the argmax row followed by `nmsStep`) strictly decreases the size of the
remaining class partition. -/
theorem nms_inner_loop_decreases (l : List BBox) (h : l ≠ []) :
    (nmsStep (l.getD (argmaxIdx (l.map BBox.score)) dummyB)
      (l.eraseIdx (argmaxIdx (l.map BBox.score)))).length < l.length :=
  nms_measure_lt l h

theorem nms_inner_loop_decreases_witness :
    (nmsStep ([dummyB].getD (argmaxIdx ([dummyB].map BBox.score)) dummyB)
      ([dummyB].eraseIdx (argmaxIdx ([dummyB].map BBox.score)))).length <
      [dummyB].length :=
  nms_inner_loop_decreases [dummyB] (by simp)

-- ### Pixel conversion and the two decode paths

/-- Python `int()` on a float: truncation toward zero. -/
def pyInt (q : ℚ) : ℤ := if q < 0 then ⌈q⌉ else ⌊q⌋

lemma pyInt_nonneg {q : ℚ} (h : 0 ≤ q) : 0 ≤ pyInt q := by
  unfold pyInt
  rw [if_neg (not_lt.mpr h)]
  exact Int.floor_nonneg.mpr h

lemma pyInt_mono {a b : ℚ} (h : a ≤ b) : pyInt a ≤ pyInt b := by
  unfold pyInt
  by_cases ha : a < 0
  · rw [if_pos ha]
    by_cases hb : b < 0
    · rw [if_pos hb]
      exact Int.ceil_mono h
    · rw [if_neg hb]
      calc ⌈a⌉ ≤ 0 := Int.ceil_le.mpr (by exact_mod_cast le_of_lt ha)
        _ ≤ ⌊b⌋ := Int.floor_nonneg.mpr (not_lt.mp hb)
  · rw [if_neg ha]
    have hb : ¬ b < 0 := fun hb => ha (lt_of_le_of_lt h hb)
    rw [if_neg hb]
    exact Int.floor_mono h

lemma pyInt_le_coe {q : ℚ} {n : ℤ} (h : q ≤ (n : ℚ)) : pyInt q ≤ n := by
  unfold pyInt
  by_cases hq : q < 0
  · rw [if_pos hq]
    exact Int.ceil_le.mpr h
  · rw [if_neg hq]
    have h2 : ((⌊q⌋ : ℤ) : ℚ) ≤ (n : ℚ) := le_trans (Int.floor_le q) h
    exact_mod_cast h2

lemma coe_le_pyInt {q : ℚ} {n : ℤ} (hn : 0 ≤ n) (h : (n : ℚ) ≤ q) : n ≤ pyInt q := by
  unfold pyInt
  have hq : ¬ q < 0 := not_lt.mpr (le_trans (by exact_mod_cast hn) h)
  rw [if_neg hq]
  exact Int.le_floor.mpr h

/-- One entry of the four SSD output tensors of `get_frames_ssd`: a normalized
box in `(ymin, xmin, ymax, xmax)` order, a class id (`int(class_ids[i])`) and a
score. -/
structure SsdRow where
  ymin : ℚ
  xmin : ℚ
  ymax : ℚ
  xmax : ℚ
  cls : ℤ
  score : ℚ
  deriving DecidableEq

/-- One element of the `frames` list built by either decode path. -/
structure Frame where
  name : String
  prob : ℚ
  xmin : ℤ
  ymin : ℤ
  xmax : ℤ
  ymax : ℤ
  deriving DecidableEq

/-- `Detector.get_frames_ssd` (lines 390–417): name lookup (unknown id ⇒
skip), target filter, confidence threshold (`prob < threshold` ⇒ skip), then
pixel conversion with clamping. -/
def ssdFrames (table : ℤ → Option String) (targetId : ℤ) (threshold : ℚ)
    (cw ch : ℤ) : List SsdRow → List Frame
  | [] => []
  | r :: rest =>
    match table r.cls with
    | none => ssdFrames table targetId threshold cw ch rest
    | some name =>
      if targetId ≠ -1 ∧ targetId ≠ r.cls then
        ssdFrames table targetId threshold cw ch rest
      else if r.score < threshold then
        ssdFrames table targetId threshold cw ch rest
      else
        { name := name, prob := r.score,
          xmin := max 0 (pyInt (r.xmin * (cw : ℚ))),
          ymin := max 0 (pyInt (r.ymin * (ch : ℚ))),
          xmax := min cw (pyInt (r.xmax * (cw : ℚ))),
          ymax := min ch (pyInt (r.ymax * (ch : ℚ))) } ::
          ssdFrames table targetId threshold cw ch rest

/-- The box clipping of `get_frames_yolo` (lines 503–512): clamp the corners
to the model input frame, then zero out boxes whose corners are out of order
(`invalid_mask`). -/
def clipCand (W H : ℚ) (b : BBox) : BBox :=
  if max b.x1 0 > min b.x2 W ∨ max b.y1 0 > min b.y2 H then
    { b with x1 := 0, y1 := 0, x2 := 0, y2 := 0 }
  else
    { b with x1 := max b.x1 0, y1 := max b.y1 0, x2 := min b.x2 W, y2 := min b.y2 H }

/-- The combined `scale_mask` and `score_mask` of `get_frames_yolo`
(lines 513–522): positive area (the geometric-mean side length is strictly
between 0 and ∞) and score strictly above the threshold. -/
def candMask (threshold : ℚ) (b : BBox) : Bool :=
  decide (0 < (b.x2 - b.x1) * (b.y2 - b.y1)) && decide (threshold < b.score)

/-- The pre-NMS candidate pool of `get_frames_yolo`: clipped boxes that pass
both masks. -/
def yoloPool (W H threshold : ℚ) (cands : List BBox) : List BBox :=
  (cands.map (clipCand W H)).filter (candMask threshold)

/-- The final loop of `get_frames_yolo` (lines 551–572): name lookup (unknown
id ⇒ skip), target filter, threshold re-check, then scaling from model input
space to camera space with clamping. -/
def yoloFrames (table : ℤ → Option String) (targetId : ℤ) (threshold : ℚ)
    (cw ch : ℤ) (scaleW scaleH : ℚ) : List BBox → List Frame
  | [] => []
  | b :: rest =>
    match table (b.cls : ℤ) with
    | none => yoloFrames table targetId threshold cw ch scaleW scaleH rest
    | some name =>
      if targetId ≠ -1 ∧ targetId ≠ (b.cls : ℤ) then
        yoloFrames table targetId threshold cw ch scaleW scaleH rest
      else if b.score < threshold then
        yoloFrames table targetId threshold cw ch scaleW scaleH rest
      else
        { name := name, prob := b.score,
          xmin := max 0 (pyInt (b.x1 * scaleW)),
          xmax := min cw (pyInt (b.x2 * scaleW)),
          ymin := max 0 (pyInt (b.y1 * scaleH)),
          ymax := min ch (pyInt (b.y2 * scaleH)) } ::
          yoloFrames table targetId threshold cw ch scaleW scaleH rest

-- ### C1: the two threshold comparisons

lemma clipCand_score (W H : ℚ) (c : BBox) : (clipCand W H c).score = c.score := by
  unfold clipCand
  split <;> rfl

/-- C1 (amended): the SSD decode path retains a candidate whose score equals
the threshold (its rejection test is `prob < threshold`), while the YOLO
path's pre-NMS confidence filter rejects it (its `score_mask` keeps only
`scores > threshold`). -/
theorem threshold_boundary_dual (table : ℤ → Option String) (targetId : ℤ)
    (θ : ℚ) (cw ch : ℤ) (r : SsdRow) (nm : String)
    (hname : table r.cls = some nm)
    (htarget : ¬(targetId ≠ -1 ∧ targetId ≠ r.cls)) (hscore : r.score = θ)
    (W H : ℚ) (c : BBox) (hcscore : c.score = θ) :
    (ssdFrames table targetId θ cw ch [r]).length = 1 ∧ yoloPool W H θ [c] = [] := by
  constructor
  · simp only [ssdFrames, hname]
    rw [if_neg htarget, if_neg (by rw [hscore]; exact lt_irrefl θ)]
    simp [ssdFrames]
  · have hmask : candMask θ (clipCand W H c) = false := by
      unfold candMask
      rw [clipCand_score, hcscore]
      simp
    unfold yoloPool
    simp only [List.map_cons, List.map_nil]
    rw [List.filter_cons_of_neg (by simp [hmask]), List.filter_nil]

/-- C1 counterexample: a candidate with a valid positive-area box whose score
is exactly the threshold is removed by the YOLO pre-NMS filter, contradicting
the claim that equality is retained on both paths. -/
theorem threshold_boundary_counterexample :
    (⟨0, 0, 10, 10, 0, 1/2⟩ : BBox).score = 1/2 ∧
      yoloPool 416 416 (1/2) [⟨0, 0, 10, 10, 0, 1/2⟩] = [] := by
  refine ⟨rfl, ?_⟩
  have hmask : candMask (1/2) (clipCand 416 416 ⟨0, 0, 10, 10, 0, 1/2⟩) = false := by
    unfold candMask
    rw [clipCand_score]
    simp
  unfold yoloPool
  simp only [List.map_cons, List.map_nil]
  rw [List.filter_cons_of_neg (by rw [hmask]; exact Bool.false_ne_true),
    List.filter_nil]

theorem threshold_boundary_dual_witness :
    (ssdFrames (fun k => if k = 0 then some ("person") else none) (-1) (1/2) 640 640
      [⟨0, 0, 1, 1, 0, 1/2⟩]).length = 1 ∧
      yoloPool 416 416 (1/2) [⟨0, 0, 10, 10, 3, 1/2⟩] = [] :=
  threshold_boundary_dual _ (-1) (1/2) 640 640 _ ("person") (by simp) (by simp) rfl
    416 416 _ rfl

-- ### C9: unknown class ids are dropped by both decode paths

lemma ssd_drop_unknown (table : ℤ → Option String) (targetId : ℤ) (θ : ℚ)
    (cw ch : ℤ) (r : SsdRow) (hr : table r.cls = none) :
    ∀ (l1 l2 : List SsdRow), ssdFrames table targetId θ cw ch (l1 ++ r :: l2) =
      ssdFrames table targetId θ cw ch (l1 ++ l2)
  | [], l2 => by
    show ssdFrames table targetId θ cw ch (r :: l2) =
      ssdFrames table targetId θ cw ch l2
    simp only [ssdFrames, hr]
  | a :: l1, l2 => by
    have ih := ssd_drop_unknown table targetId θ cw ch r hr l1 l2
    show ssdFrames table targetId θ cw ch (a :: (l1 ++ r :: l2)) =
      ssdFrames table targetId θ cw ch (a :: (l1 ++ l2))
    cases h : table a.cls with
    | none =>
      simp only [ssdFrames, h]
      exact ih
    | some nm =>
      simp only [ssdFrames, h]
      rw [ih]

lemma yolo_drop_unknown (table : ℤ → Option String) (targetId : ℤ) (θ : ℚ)
    (cw ch : ℤ) (sW sH : ℚ) (b : BBox) (hb : table (b.cls : ℤ) = none) :
    ∀ (l1 l2 : List BBox), yoloFrames table targetId θ cw ch sW sH (l1 ++ b :: l2) =
      yoloFrames table targetId θ cw ch sW sH (l1 ++ l2)
  | [], l2 => by
    show yoloFrames table targetId θ cw ch sW sH (b :: l2) =
      yoloFrames table targetId θ cw ch sW sH l2
    simp only [yoloFrames, hb]
  | a :: l1, l2 => by
    have ih := yolo_drop_unknown table targetId θ cw ch sW sH b hb l1 l2
    show yoloFrames table targetId θ cw ch sW sH (a :: (l1 ++ b :: l2)) =
      yoloFrames table targetId θ cw ch sW sH (a :: (l1 ++ l2))
    cases h : table (a.cls : ℤ) with
    | none =>
      simp only [yoloFrames, h]
      exact ih
    | some nm =>
      simp only [yoloFrames, h]
      rw [ih]

/-- C9: a decoded candidate whose class id has no entry in the label table is
skipped by both decode paths (`id2label.get(cid) is None` ⇒ `continue`), so
the output list is exactly what it would be without that candidate. -/
theorem unknown_class_dropped (table : ℤ → Option String) (targetId : ℤ)
    (θ : ℚ) (cw ch : ℤ) (sW sH : ℚ) :
    (∀ (r : SsdRow), table r.cls = none → ∀ l1 l2,
      ssdFrames table targetId θ cw ch (l1 ++ r :: l2) =
        ssdFrames table targetId θ cw ch (l1 ++ l2)) ∧
    (∀ (b : BBox), table (b.cls : ℤ) = none → ∀ l1 l2,
      yoloFrames table targetId θ cw ch sW sH (l1 ++ b :: l2) =
        yoloFrames table targetId θ cw ch sW sH (l1 ++ l2)) :=
  ⟨fun r hr l1 l2 => ssd_drop_unknown table targetId θ cw ch r hr l1 l2,
    fun b hb l1 l2 => yolo_drop_unknown table targetId θ cw ch sW sH b hb l1 l2⟩

theorem unknown_class_dropped_witness :
    ssdFrames (fun _ => none) (-1) (1/2) 640 640 ([] ++ ⟨0, 0, 1, 1, 5, 9/10⟩ :: []) =
      ssdFrames (fun _ => none) (-1) (1/2) 640 640 ([] ++ []) ∧
    yoloFrames (fun _ => none) (-1) (1/2) 640 640 1 1 ([] ++ ⟨0, 0, 10, 10, 5, 9/10⟩ :: []) =
      yoloFrames (fun _ => none) (-1) (1/2) 640 640 1 1 ([] ++ []) :=
  ⟨(unknown_class_dropped (fun _ => none) (-1) (1/2) 640 640 1 1).1 _ rfl [] [],
    (unknown_class_dropped (fun _ => none) (-1) (1/2) 640 640 1 1).2 _ rfl [] []⟩

-- ### C8: the dual label-table construction of `Detector.__init__`

/-- A Python dict assignment `d[k] = v` on an integer-keyed dict. -/
def insertKey (d : ℤ → Option String) (k : ℤ) (v : String) : ℤ → Option String :=
  fun q => if q = k then some v else d q

/-- The label-file loop of `Detector.__init__` (lines 329–345): for each
parsed line `(idx, label)` the YOLO branch keys `id2label` by the running line
counter `off`, the SSD branch by the parsed numeric id `idx`. -/
def buildLoop (isYolo : Bool) : ℤ → (ℤ → Option String) → List (ℤ × String) →
    (ℤ → Option String)
  | _, d, [] => d
  | off, d, e :: rest =>
    buildLoop isYolo (off + 1) (insertKey d (if isYolo then off else e.1) e.2) rest

/-- The finished `id2label` dict, built from the parsed label-file lines. -/
def id2label (isYolo : Bool) (entries : List (ℤ × String)) : ℤ → Option String :=
  buildLoop isYolo 0 (fun _ => none) entries

lemma buildLoop_yolo_low : ∀ (entries : List (ℤ × String)) (off : ℤ)
    (d : ℤ → Option String) (k : ℤ), k < off → buildLoop true off d entries k = d k
  | [], _, _, _, _ => rfl
  | e :: rest, off, d, k, hk => by
    simp only [buildLoop, if_true]
    rw [buildLoop_yolo_low rest (off + 1) _ k (by omega)]
    unfold insertKey
    rw [if_neg (by omega)]

lemma buildLoop_yolo_get : ∀ (entries : List (ℤ × String)) (off : ℤ)
    (d : ℤ → Option String) (j : ℕ) (hj : j < entries.length),
    buildLoop true off d entries (off + (j : ℤ)) = some (entries.get ⟨j, hj⟩).2
  | e :: rest, off, d, 0, _ => by
    simp only [buildLoop, if_true]
    rw [buildLoop_yolo_low rest (off + 1) _ (off + (0 : ℕ)) (by omega)]
    unfold insertKey
    simp
  | e :: rest, off, d, j + 1, hj => by
    have ih := buildLoop_yolo_get rest (off + 1) (insertKey d off e.2) j
      (by simpa using Nat.lt_of_succ_lt_succ hj)
    simp only [buildLoop, if_true]
    have hcast : off + ((j : ℕ) + 1 : ℤ) = (off + 1) + (j : ℤ) := by ring
    rw [show ((j + 1 : ℕ) : ℤ) = ((j : ℕ) : ℤ) + 1 from by push_cast; ring, hcast]
    exact ih

lemma buildLoop_ssd_notmem : ∀ (entries : List (ℤ × String)) (off : ℤ)
    (d : ℤ → Option String) (k : ℤ), k ∉ entries.map Prod.fst →
    buildLoop false off d entries k = d k
  | [], _, _, _, _ => rfl
  | e :: rest, off, d, k, hk => by
    simp only [List.map_cons, List.mem_cons] at hk
    push_neg at hk
    show buildLoop false (off + 1) (insertKey d e.1 e.2) rest k = d k
    rw [buildLoop_ssd_notmem rest (off + 1) _ k hk.2]
    unfold insertKey
    rw [if_neg hk.1]

lemma buildLoop_ssd_mem : ∀ (entries : List (ℤ × String)) (off : ℤ)
    (d : ℤ → Option String), (entries.map Prod.fst).Nodup →
    ∀ p ∈ entries, buildLoop false off d entries p.1 = some p.2
  | [], _, _, _, p, hp => by simp at hp
  | e :: rest, off, d, hnd, p, hp => by
    have hnd2 : e.1 ∉ rest.map Prod.fst ∧ (rest.map Prod.fst).Nodup := by
      rw [List.map_cons] at hnd
      exact List.nodup_cons.mp hnd
    show buildLoop false (off + 1) (insertKey d e.1 e.2) rest p.1 = some p.2
    rcases List.mem_cons.mp hp with rfl | hmem
    · rw [buildLoop_ssd_notmem rest (off + 1) _ p.1 hnd2.1]
      unfold insertKey
      rw [if_pos rfl]
    · exact buildLoop_ssd_mem rest (off + 1) _ hnd2.2 p hmem

/-- C8: the label table is dual — for YOLO models the class index of each
label is its sequential line number in the file, while for SSD models it is
the numeric id parsed from the line's first column; both maps come from the
same parsed lines. -/
theorem label_table_dual (entries : List (ℤ × String)) :
    (∀ (j : ℕ) (hj : j < entries.length),
      id2label true entries (j : ℤ) = some (entries.get ⟨j, hj⟩).2) ∧
    ((entries.map Prod.fst).Nodup →
      ∀ p ∈ entries, id2label false entries p.1 = some p.2) := by
  constructor
  · intro j hj
    have := buildLoop_yolo_get entries 0 (fun _ => none) j hj
    simpa using this
  · intro hnd p hp
    exact buildLoop_ssd_mem entries 0 _ hnd p hp

theorem label_table_dual_witness :
    id2label true [((17 : ℤ), "cat")] ((0 : ℕ) : ℤ) = some ("cat") ∧
      id2label false [((17 : ℤ), "cat")] 17 = some ("cat") :=
  ⟨(label_table_dual [((17 : ℤ), "cat")]).1 0 (by simp),
    (label_table_dual [((17 : ℤ), "cat")]).2 (by simp) ((17 : ℤ), "cat") (by simp)⟩

-- ### C7: stride and anchor decode of `get_frames_yolo` (lines 467–488)

/-- `strides = (self.image_width // pred_x, self.image_height // pred_y)`,
with Python integer floor division. -/
def stridesOf (imgW imgH predX predY : ℕ) : ℕ × ℕ := (imgW / predX, imgH / predY)

/-- The per-cell center decode
`xy = ((xy * xyscale) - (0.5 * (xyscale - 1)) + xy_offset) * strides`, read
off one scalar coordinate at grid offset `g`. -/
def decodeCenter (xyscale : ℚ) (stride : ℕ) (raw : ℚ) (g : ℕ) : ℚ :=
  ((raw * xyscale) - ((1 / 2) * (xyscale - 1)) + (g : ℚ)) * (stride : ℚ)

/-- The per-cell size decode `wh = wh * anchor`, one scalar coordinate. -/
def decodeSize (raw anchor : ℚ) : ℚ := raw * anchor

/-- C7: when the grid evenly divides the model input (true of every supported
variant: 416 = 32·13 = 16·26 = 8·52), the integer stride computed by the code
equals the exact ratio `model_input / grid`, and each cell decodes its center
as `((raw·xy_scale) − 0.5·(xy_scale − 1) + g) · stride` and its size as
`raw · anchor`. -/
theorem anchor_decode_formulas (imgW imgH predX predY : ℕ)
    (hx0 : predX ≠ 0) (hy0 : predY ≠ 0) (hx : predX ∣ imgW) (hy : predY ∣ imgH) :
    ((stridesOf imgW imgH predX predY).1 : ℚ) = (imgW : ℚ) / (predX : ℚ) ∧
    ((stridesOf imgW imgH predX predY).2 : ℚ) = (imgH : ℚ) / (predY : ℚ) ∧
    (∀ (xyscale raw : ℚ) (gx : ℕ),
      decodeCenter xyscale (stridesOf imgW imgH predX predY).1 raw gx =
        ((raw * xyscale) - ((1 / 2) * (xyscale - 1)) + (gx : ℚ)) *
          ((imgW : ℚ) / (predX : ℚ))) ∧
    (∀ (xyscale raw : ℚ) (gy : ℕ),
      decodeCenter xyscale (stridesOf imgW imgH predX predY).2 raw gy =
        ((raw * xyscale) - ((1 / 2) * (xyscale - 1)) + (gy : ℚ)) *
          ((imgH : ℚ) / (predY : ℚ))) ∧
    (∀ raw anchor : ℚ, decodeSize raw anchor = raw * anchor) := by
  have hW : ((stridesOf imgW imgH predX predY).1 : ℚ) = (imgW : ℚ) / (predX : ℚ) := by
    show ((imgW / predX : ℕ) : ℚ) = (imgW : ℚ) / (predX : ℚ)
    exact Nat.cast_div hx (by exact_mod_cast hx0)
  have hH : ((stridesOf imgW imgH predX predY).2 : ℚ) = (imgH : ℚ) / (predY : ℚ) := by
    show ((imgH / predY : ℕ) : ℚ) = (imgH : ℚ) / (predY : ℚ)
    exact Nat.cast_div hy (by exact_mod_cast hy0)
  refine ⟨hW, hH, ?_, ?_, fun _ _ => rfl⟩
  · intro xyscale raw gx
    unfold decodeCenter
    rw [hW]
  · intro xyscale raw gy
    unfold decodeCenter
    rw [hH]

theorem anchor_decode_formulas_witness :
    ((stridesOf 416 416 13 13).1 : ℚ) = (416 : ℚ) / (13 : ℚ) :=
  (anchor_decode_formulas 416 416 13 13 (by norm_num) (by norm_num)
    (by norm_num) (by norm_num)).1

-- ### C6: bounding-box invariants of the emitted frames

/-- The invariant claimed of every emitted Detection: ordered corners, all
pixel coordinates within the camera frame. -/
def frameInv (cw ch : ℤ) (f : Frame) : Prop :=
  0 ≤ f.xmin ∧ f.xmin ≤ f.xmax ∧ f.xmax ≤ cw ∧
    0 ≤ f.ymin ∧ f.ymin ≤ f.ymax ∧ f.ymax ≤ ch

/-- Well-formedness of one SSD tensor row: normalized coordinates in `[0, 1]`
with ordered corners. -/
def ssdRowWf (r : SsdRow) : Prop :=
  0 ≤ r.xmin ∧ r.xmin ≤ r.xmax ∧ r.xmax ≤ 1 ∧
    0 ≤ r.ymin ∧ r.ymin ≤ r.ymax ∧ r.ymax ≤ 1

/-- A candidate box with ordered corners inside the model input frame. -/
def boundedBox (W H : ℚ) (b : BBox) : Prop :=
  0 ≤ b.x1 ∧ b.x1 ≤ b.x2 ∧ b.x2 ≤ W ∧ 0 ≤ b.y1 ∧ b.y1 ≤ b.y2 ∧ b.y2 ≤ H

lemma pyInt_intCast (n : ℤ) : pyInt ((n : ℤ) : ℚ) = n := by
  unfold pyInt
  split_ifs
  · exact Int.ceil_intCast n
  · exact Int.floor_intCast n

lemma clamp_pair (cw : ℤ) (q1 q2 : ℚ) (h0 : 0 ≤ q1) (h12 : q1 ≤ q2)
    (h2 : q2 ≤ (cw : ℚ)) :
    0 ≤ max 0 (pyInt q1) ∧ max 0 (pyInt q1) ≤ min cw (pyInt q2) ∧
      min cw (pyInt q2) ≤ cw := by
  have ha : 0 ≤ pyInt q1 := pyInt_nonneg h0
  have hb : pyInt q1 ≤ pyInt q2 := pyInt_mono h12
  have hc : pyInt q2 ≤ cw := pyInt_le_coe h2
  refine ⟨le_max_left _ _, ?_, min_le_left _ _⟩
  rw [max_eq_right ha]
  exact le_min (le_trans hb hc) hb

lemma ssdFrames_inv (table : ℤ → Option String) (targetId : ℤ) (θ : ℚ)
    (cw ch : ℤ) (hcw : 0 ≤ cw) (hch : 0 ≤ ch) :
    ∀ (rows : List SsdRow), (∀ r ∈ rows, ssdRowWf r) →
      ∀ f ∈ ssdFrames table targetId θ cw ch rows, frameInv cw ch f
  | [], _, f, hf => by simp [ssdFrames] at hf
  | r :: rest, hwf, f, hf => by
    have ih := ssdFrames_inv table targetId θ cw ch hcw hch rest
      (fun x hx => hwf x (by simp [hx]))
    revert hf
    cases h : table r.cls with
    | none =>
      intro hf
      refine ih f ?_
      simpa only [ssdFrames, h] using hf
    | some nm =>
      intro hf
      simp only [ssdFrames, h] at hf
      split_ifs at hf
      · exact ih f hf
      · exact ih f hf
      · rcases List.mem_cons.mp hf with rfl | hmem
        · obtain ⟨w1, w2, w3, w4, w5, w6⟩ := hwf r (by simp)
          have hcwQ : (0 : ℚ) ≤ (cw : ℚ) := by exact_mod_cast hcw
          have hchQ : (0 : ℚ) ≤ (ch : ℚ) := by exact_mod_cast hch
          have hx := clamp_pair cw (r.xmin * (cw : ℚ)) (r.xmax * (cw : ℚ))
            (mul_nonneg w1 hcwQ) (mul_le_mul_of_nonneg_right w2 hcwQ)
            (by calc r.xmax * (cw : ℚ) ≤ 1 * (cw : ℚ) :=
                  mul_le_mul_of_nonneg_right w3 hcwQ
              _ = (cw : ℚ) := one_mul _)
          have hy := clamp_pair ch (r.ymin * (ch : ℚ)) (r.ymax * (ch : ℚ))
            (mul_nonneg w4 hchQ) (mul_le_mul_of_nonneg_right w5 hchQ)
            (by calc r.ymax * (ch : ℚ) ≤ 1 * (ch : ℚ) :=
                  mul_le_mul_of_nonneg_right w6 hchQ
              _ = (ch : ℚ) := one_mul _)
          exact ⟨hx.1, hx.2.1, hx.2.2, hy.1, hy.2.1, hy.2.2⟩
        · exact ih f hmem

lemma yoloFrames_inv (table : ℤ → Option String) (targetId : ℤ) (θ : ℚ)
    (cw ch : ℤ) (hcw : 0 ≤ cw) (hch : 0 ≤ ch) (W H : ℚ) (hW : 0 < W) (hH : 0 < H) :
    ∀ (l : List BBox), (∀ b ∈ l, boundedBox W H b) →
      ∀ f ∈ yoloFrames table targetId θ cw ch ((cw : ℚ) / W) ((ch : ℚ) / H) l,
        frameInv cw ch f
  | [], _, f, hf => by simp [yoloFrames] at hf
  | b :: rest, hbd, f, hf => by
    have ih := yoloFrames_inv table targetId θ cw ch hcw hch W H hW hH rest
      (fun x hx => hbd x (by simp [hx]))
    revert hf
    cases h : table (b.cls : ℤ) with
    | none =>
      intro hf
      refine ih f ?_
      simpa only [yoloFrames, h] using hf
    | some nm =>
      intro hf
      simp only [yoloFrames, h] at hf
      split_ifs at hf
      · exact ih f hf
      · exact ih f hf
      · rcases List.mem_cons.mp hf with rfl | hmem
        · obtain ⟨w1, w2, w3, w4, w5, w6⟩ := hbd b (by simp)
          have hcwQ : (0 : ℚ) ≤ (cw : ℚ) := by exact_mod_cast hcw
          have hchQ : (0 : ℚ) ≤ (ch : ℚ) := by exact_mod_cast hch
          have hsW : (0 : ℚ) ≤ (cw : ℚ) / W := div_nonneg hcwQ (le_of_lt hW)
          have hsH : (0 : ℚ) ≤ (ch : ℚ) / H := div_nonneg hchQ (le_of_lt hH)
          have hx := clamp_pair cw (b.x1 * ((cw : ℚ) / W)) (b.x2 * ((cw : ℚ) / W))
            (mul_nonneg w1 hsW) (mul_le_mul_of_nonneg_right w2 hsW)
            (by calc b.x2 * ((cw : ℚ) / W) ≤ W * ((cw : ℚ) / W) :=
                  mul_le_mul_of_nonneg_right w3 hsW
              _ = (cw : ℚ) / W * W := mul_comm _ _
              _ = (cw : ℚ) := div_mul_cancel₀ _ (ne_of_gt hW))
          have hy := clamp_pair ch (b.y1 * ((ch : ℚ) / H)) (b.y2 * ((ch : ℚ) / H))
            (mul_nonneg w4 hsH) (mul_le_mul_of_nonneg_right w5 hsH)
            (by calc b.y2 * ((ch : ℚ) / H) ≤ H * ((ch : ℚ) / H) :=
                  mul_le_mul_of_nonneg_right w6 hsH
              _ = (ch : ℚ) / H * H := mul_comm _ _
              _ = (ch : ℚ) := div_mul_cancel₀ _ (ne_of_gt hH))
          exact ⟨hx.1, hx.2.1, hx.2.2, hy.1, hy.2.1, hy.2.2⟩
        · exact ih f hmem

lemma yoloPool_bounds (W H θ : ℚ) (cands : List BBox) :
    ∀ b ∈ yoloPool W H θ cands, boundedBox W H b := by
  intro b hb
  unfold yoloPool at hb
  obtain ⟨hmem, hmask⟩ := List.mem_filter.mp hb
  obtain ⟨c, _, rfl⟩ := List.mem_map.mp hmem
  by_cases hbad : max c.x1 0 > min c.x2 W ∨ max c.y1 0 > min c.y2 H
  · exfalso
    rw [clipCand, if_pos hbad] at hmask
    unfold candMask at hmask
    simp at hmask
  · rw [clipCand, if_neg hbad]
    push_neg at hbad
    exact ⟨le_max_right _ _, hbad.1, min_le_right _ _,
      le_max_right _ _, hbad.2, min_le_right _ _⟩

lemma mem_nms {x : BBox} {pool : List BBox} (hx : x ∈ nms pool) : x ∈ pool := by
  unfold nms at hx
  obtain ⟨c, _, hcls⟩ := (mem_nmsClasses pool _).mp hx
  exact (cls_of_mem_nmsClass hcls).1

/-- C6 (amended): every Detection emitted by the YOLO path satisfies
`xmin ≤ xmax`, `ymin ≤ ymax` with all coordinates clamped into the frame;
the SSD path guarantees the same provided the model's normalized boxes are
well-formed (ordered corners within `[0, 1]`) — without that hypothesis the
SSD path can emit `xmin > xmax` (see the counterexample); and in both paths a
computed pixel `xmax` at or beyond the frame width is reported as exactly the
frame width. -/
theorem detection_invariant (table : ℤ → Option String) (targetId : ℤ) (θ : ℚ)
    (cw ch : ℤ) (hcw : 0 ≤ cw) (hch : 0 ≤ ch) :
    (∀ rows : List SsdRow, (∀ r ∈ rows, ssdRowWf r) →
      ∀ f ∈ ssdFrames table targetId θ cw ch rows, frameInv cw ch f) ∧
    (∀ (W H : ℚ), 0 < W → 0 < H → ∀ cands : List BBox,
      ∀ f ∈ yoloFrames table targetId θ cw ch ((cw : ℚ) / W) ((ch : ℚ) / H)
        (nms (yoloPool W H θ cands)), frameInv cw ch f) ∧
    (∀ q : ℚ, (cw : ℚ) ≤ q → min cw (pyInt q) = cw) := by
  refine ⟨fun rows hwf f hf => ssdFrames_inv table targetId θ cw ch hcw hch rows hwf f hf,
    ?_, ?_⟩
  · intro W H hW hH cands f hf
    refine yoloFrames_inv table targetId θ cw ch hcw hch W H hW hH _ ?_ f hf
    intro b hb
    exact yoloPool_bounds W H θ cands b (mem_nms hb)
  · intro q hq
    exact min_eq_left (coe_le_pyInt hcw hq)

theorem detection_invariant_witness :
    min (640 : ℤ) (pyInt 700) = 640 :=
  (detection_invariant (fun _ => none) (-1) (1/2) 640 640 (by norm_num)
    (by norm_num)).2.2 700 (by norm_num)

lemma ssdFrames_emit (table : ℤ → Option String) (targetId : ℤ) (θ : ℚ)
    (cw ch : ℤ) (r : SsdRow) (rest : List SsdRow) (nm : String)
    (hname : table r.cls = some nm)
    (ht : ¬(targetId ≠ -1 ∧ targetId ≠ r.cls)) (hs : ¬ r.score < θ) :
    ssdFrames table targetId θ cw ch (r :: rest) =
      { name := nm, prob := r.score,
        xmin := max 0 (pyInt (r.xmin * (cw : ℚ))),
        ymin := max 0 (pyInt (r.ymin * (ch : ℚ))),
        xmax := min cw (pyInt (r.xmax * (cw : ℚ))),
        ymax := min ch (pyInt (r.ymax * (ch : ℚ))) } ::
        ssdFrames table targetId θ cw ch rest := by
  simp only [ssdFrames, hname]
  rw [if_neg ht, if_neg hs]

/-- C6 counterexample: the SSD path performs no validity check on the raw
normalized box, so a row with `xmin > xmax` (here `0.9 > 0.1`) yields an
emitted Detection with `xmin = 576 > xmax = 64` — the claimed invariant fails
on the direct decode path. -/
theorem detection_invariant_counterexample :
    ssdFrames (fun k => if k = 0 then some ("person") else none) (-1) (1/2) 640 640
      [⟨0, 9/10, 1, 1/10, 0, 9/10⟩] = [⟨"person", 9/10, 576, 0, 64, 640⟩] ∧
      ¬ ((576 : ℤ) ≤ 64) := by
  constructor
  · have e1 : pyInt ((9 : ℚ)/10 * ((640 : ℤ) : ℚ)) = 576 := by
      rw [show (9 : ℚ)/10 * ((640 : ℤ) : ℚ) = ((576 : ℤ) : ℚ) from by push_cast; norm_num]
      exact pyInt_intCast 576
    have e2 : pyInt ((0 : ℚ) * ((640 : ℤ) : ℚ)) = 0 := by
      rw [show (0 : ℚ) * ((640 : ℤ) : ℚ) = ((0 : ℤ) : ℚ) from by push_cast; norm_num]
      exact pyInt_intCast 0
    have e3 : pyInt ((1 : ℚ)/10 * ((640 : ℤ) : ℚ)) = 64 := by
      rw [show (1 : ℚ)/10 * ((640 : ℤ) : ℚ) = ((64 : ℤ) : ℚ) from by push_cast; norm_num]
      exact pyInt_intCast 64
    have e4 : pyInt ((1 : ℚ) * ((640 : ℤ) : ℚ)) = 640 := by
      rw [show (1 : ℚ) * ((640 : ℤ) : ℚ) = ((640 : ℤ) : ℚ) from by push_cast; norm_num]
      exact pyInt_intCast 640
    rw [ssdFrames_emit (fun k => if k = 0 then some ("person") else none) (-1) (1/2)
      640 640 ⟨0, 9/10, 1, 1/10, 0, 9/10⟩ [] ("person") (by norm_num) (by simp)
      (by norm_num)]
    rw [e1, e2, e3, e4]
    norm_num [ssdFrames, max_def, min_def]
  · norm_num
